import Mathlib

/-
Shallow embedding of the Mind-Chat core: the conversation history store
(src/app/history.py, class HistoryManager) and the prompt assembler
(src/app/llm_client.py, LocalLLM._build_prompt / _normalize_messages).

Modelling conventions:
- Timestamps are integers (epoch seconds).  The code stores ISO-8601
  second-precision UTC strings and compares them after parsing with
  datetime.fromisoformat; such strings are order-isomorphic to their
  epoch values, so integer timestamps are a faithful abstraction of the
  orderings the code computes.  Calls to datetime.now are modelled by an
  explicit `now` argument.
- The backing file is carried inside the store state as a JSON value
  (field `file`); `json.loads` of the file text is modelled as an
  `Option Json` argument to the load function, where `none` stands for a
  JSONDecodeError.
- Python exceptions raised by a store method are modelled by the method
  returning the store state unchanged together with an error value; in
  the source every raise happens before any mutation, so this is exact.
- `list.sort(key=..., reverse=True)` is a stable descending sort; the
  insertion sort below is also stable and descending on the same key, and
  a stable sort for a fixed key is unique, so the two agree.
-/

inductive Role where
  | user
  | assistant
deriving DecidableEq

/-- Modelled from the spec: models.py is absent from the sources.  Spec
section 3: a chat message is a role, a content text and a creation
timestamp. -/
structure ChatMessage where
  role : Role
  content : String
  created_at : Int
deriving DecidableEq

/-- Modelled from the spec: models.py is absent from the sources.  Spec
section 3: a conversation has an opaque unique id, a title, an ordered
message list, a favorite flag and two timestamps. -/
structure Conversation where
  conversation_id : String
  title : String
  messages : List ChatMessage
  is_favorite : Bool
  created_at : Int
  updated_at : Int
deriving DecidableEq

/-- JSON values, as produced by Python's json module.  Numbers are
restricted to integers, which is all the abstraction needs. -/
inductive Json where
  | null
  | bool (b : Bool)
  | num (n : Int)
  | str (s : String)
  | arr (items : List Json)
  | obj (fields : List (String × Json))

def Role.toJsonStr : Role → String
  | .user => "user"
  | .assistant => "assistant"

def Role.ofJsonStr (s : String) : Except String Role :=
  if s = "user" then .ok .user
  else if s = "assistant" then .ok .assistant
  else .error "ValueError: bad role"

def jLookup (k : String) : List (String × Json) → Except String Json
  | [] => .error ("KeyError: " ++ k)
  | kv :: rest => if kv.fst = k then .ok kv.snd else jLookup k rest

def jGet (k : String) (j : Json) : Except String Json :=
  match j with
  | .obj kvs => jLookup k kvs
  | _ => .error "TypeError: not a dict"

/-- Modelled from the spec: models.py is absent.  Spec section 6: a
message serializes to an object with role, content and created_at. -/
def ChatMessage.to_dict (msg : ChatMessage) : Json :=
  .obj [("role", .str msg.role.toJsonStr),
        ("content", .str msg.content),
        ("created_at", .num msg.created_at)]

/-- Modelled from the spec: models.py is absent.  Reads the three fields
back; any missing field or wrong shape is an error (a raised exception). -/
def ChatMessage.from_dict (j : Json) : Except String ChatMessage :=
  match jGet "role" j, jGet "content" j, jGet "created_at" j with
  | .ok (.str r), .ok (.str content), .ok (.num t) =>
    match Role.ofJsonStr r with
    | .ok role => .ok { role := role, content := content, created_at := t }
    | .error e => .error e
  | _, _, _ => .error "TypeError: bad message record"

def decodeList {α : Type} (f : Json → Except String α) : List Json → Except String (List α)
  | [] => .ok []
  | j :: js =>
    match f j with
    | .error e => .error e
    | .ok a =>
      match decodeList f js with
      | .error e => .error e
      | .ok as => .ok (a :: as)

/-- Modelled from the spec: models.py is absent.  Spec section 6 lists the
six fields of a persisted conversation object. -/
def Conversation.to_dict (c : Conversation) : Json :=
  .obj [("conversation_id", .str c.conversation_id),
        ("title", .str c.title),
        ("messages", .arr (c.messages.map ChatMessage.to_dict)),
        ("is_favorite", .bool c.is_favorite),
        ("created_at", .num c.created_at),
        ("updated_at", .num c.updated_at)]

/-- Modelled from the spec: models.py is absent.  Reads the six fields
back; any missing field or wrong shape is an error (a raised exception). -/
def Conversation.from_dict (j : Json) : Except String Conversation :=
  match jGet "conversation_id" j, jGet "title" j, jGet "messages" j,
        jGet "is_favorite" j, jGet "created_at" j, jGet "updated_at" j with
  | .ok (.str cid), .ok (.str title), .ok (.arr ms),
    .ok (.bool fav), .ok (.num ca), .ok (.num ua) =>
    match decodeList ChatMessage.from_dict ms with
    | .ok msgs =>
      .ok { conversation_id := cid, title := title, messages := msgs,
            is_favorite := fav, created_at := ca, updated_at := ua }
    | .error e => .error e
  | _, _, _, _, _, _ => .error "TypeError: bad conversation record"

/-- src/app/config.py AppConfig: the two bounds the store consults. -/
structure AppConfig where
  max_conversations : Nat
  max_favorites : Nat
deriving DecidableEq

inductive HistoryError where
  | notFound
  | favoriteLimit
deriving DecidableEq

/-- src/app/history.py HistoryManager: the in-memory conversation list
plus the backing file content (the JSON value the file holds). -/
structure HistoryManager where
  config : AppConfig
  conversations : List Conversation
  file : Json

def serialize (cs : List Conversation) : Json :=
  .arr (cs.map Conversation.to_dict)

/-- HistoryManager._persist: write the whole collection through to disk. -/
def persist (m : HistoryManager) : HistoryManager :=
  { m with file := serialize m.conversations }

/-- HistoryManager._find_conversation: first conversation with the id. -/
def findConversation (m : HistoryManager) (id : String) : Option Conversation :=
  m.conversations.find? (fun c => c.conversation_id = id)

/-- HistoryManager.list_conversations: a defensive copy of the list. -/
def list_conversations (m : HistoryManager) : List Conversation :=
  m.conversations

/-- HistoryManager.favorite_count. -/
def favorite_count (m : HistoryManager) : Nat :=
  List.countP (fun c => c.is_favorite) m.conversations

/-- In-place update of the found conversation object: the list cell of
the first conversation carrying the id now holds the mutated value. -/
def replaceFirst (id : String) (c' : Conversation) : List Conversation → List Conversation
  | [] => []
  | c :: cs => if c.conversation_id = id then c' :: cs else c :: replaceFirst id c' cs

/-- list.remove(conversation) for the conversation with the given id:
drops the first occurrence, no change if absent (ValueError passed). -/
def removeFirstById (id : String) : List Conversation → List Conversation
  | [] => []
  | c :: cs => if c.conversation_id = id then cs else c :: removeFirstById id cs

/-- list.remove(oldest): drops the first element equal to the target. -/
def removeFirstEq (target : Conversation) : List Conversation → List Conversation
  | [] => []
  | c :: cs => if c = target then cs else c :: removeFirstEq target cs

/-- HistoryManager._promote_to_top, applied to a list in which the first
conversation carrying the id is the object `c'` itself: if it already
sits at the head, leave the list untouched; otherwise remove it and
re-insert it at index 0. -/
def promoteToTop (c' : Conversation) (cs : List Conversation) : List Conversation :=
  match cs with
  | [] => [c']
  | d :: ds =>
    if d.conversation_id = c'.conversation_id then d :: ds
    else c' :: removeFirstById c'.conversation_id (d :: ds)

/-- Python min over a non-empty list with a key: keeps the earliest
element achieving the minimum (replaces only on strictly smaller). -/
def minByUpdated (c : Conversation) (cs : List Conversation) : Conversation :=
  cs.foldl (fun best d => if d.updated_at < best.updated_at then d else best) c

/-- HistoryManager._oldest_non_favorite. -/
def oldest_non_favorite (cs : List Conversation) : Option Conversation :=
  match cs.filter (fun c => !c.is_favorite) with
  | [] => none
  | c :: rest => some (minByUpdated c rest)

/-- HistoryManager._enforce_limits as a fuelled loop.  Each iteration
either stops or removes one element of the list, so running it with the
list's length as fuel runs the Python while-loop to completion. -/
def enforce_loop (cfg : AppConfig) : Nat → List Conversation → List Conversation
  | 0, cs => cs
  | fuel + 1, cs =>
    if cfg.max_conversations < cs.length then
      match oldest_non_favorite cs with
      | none => cs
      | some o => enforce_loop cfg fuel (removeFirstEq o cs)
    else cs

def enforce_limits (m : HistoryManager) : HistoryManager :=
  { m with conversations := enforce_loop m.config m.conversations.length m.conversations }

/-- Modelled from the spec: models.py is absent.  Spec section 4.1
create: a fresh conversation has the given id, empty messages, favorite
off, both timestamps set to now, placeholder title. -/
def new_conversation (id : String) (now : Int) : Conversation :=
  { conversation_id := id, title := "new conversation", messages := [],
    is_favorite := false, created_at := now, updated_at := now }

/-- HistoryManager.create_conversation: insert at 0, enforce, persist. -/
def create_conversation (m : HistoryManager) (id : String) (now : Int) :
    HistoryManager × Conversation :=
  let c := new_conversation id now
  let m₁ := { m with conversations := c :: m.conversations }
  (persist (enforce_limits m₁), c)

/-- HistoryManager.upsert_conversation: replace in place when the id is
present, insert at 0 otherwise; persist.  No limit enforcement. -/
def upsert_conversation (m : HistoryManager) (c : Conversation) : HistoryManager :=
  match findConversation m c.conversation_id with
  | some _ => persist { m with conversations := replaceFirst c.conversation_id c m.conversations }
  | none => persist { m with conversations := c :: m.conversations }

/-- HistoryManager.append_message.  Conversation.append_message lives in
the absent models.py; modelled from the spec (section 4.1): it appends
the message and refreshes updated_at. -/
def append_message (m : HistoryManager) (id : String) (msg : ChatMessage) (now : Int) :
    HistoryManager × Except HistoryError Conversation :=
  match findConversation m id with
  | none => (m, .error .notFound)
  | some c =>
    let c' := { c with messages := c.messages ++ [msg], updated_at := now }
    let m₁ := { m with conversations := promoteToTop c' (replaceFirst id c' m.conversations) }
    (persist m₁, .ok c')

/-- HistoryManager.remove_trailing_user_message. -/
def remove_trailing_user_message (m : HistoryManager) (id : String) (now : Int) :
    HistoryManager × Except HistoryError Conversation :=
  match findConversation m id with
  | none => (m, .error .notFound)
  | some c =>
    match c.messages.getLast? with
    | some last =>
      if last.role = Role.user then
        let c' := { c with messages := c.messages.dropLast, updated_at := now }
        (persist { m with conversations := replaceFirst id c' m.conversations }, .ok c')
      else (m, .ok c)
    | none => (m, .ok c)

/-- HistoryManager.toggle_favorite. -/
def toggle_favorite (m : HistoryManager) (id : String) (now : Int) :
    HistoryManager × Except HistoryError Conversation :=
  match findConversation m id with
  | none => (m, .error .notFound)
  | some c =>
    let target := !c.is_favorite
    if target = true ∧ m.config.max_favorites ≤ favorite_count m then
      (m, .error .favoriteLimit)
    else
      let c' := { c with is_favorite := target, updated_at := now }
      let m₁ := { m with conversations := promoteToTop c' (replaceFirst id c' m.conversations) }
      (persist (enforce_limits m₁), .ok c')

/-- HistoryManager.delete_conversation. -/
def delete_conversation (m : HistoryManager) (id : String) :
    HistoryManager × Except HistoryError Unit :=
  match findConversation m id with
  | none => (m, .error .notFound)
  | some _ => (persist { m with conversations := removeFirstById id m.conversations }, .ok ())

/-- Stable insertion step of the descending sort on updated_at: the new
element goes in front of the first element whose key is not larger. -/
def insertByUpdated (c : Conversation) : List Conversation → List Conversation
  | [] => [c]
  | d :: ds => if d.updated_at ≤ c.updated_at then c :: d :: ds else d :: insertByUpdated c ds

/-- conversations.sort(key=timestamp, reverse=True): a stable descending
sort by updated_at (stable sorts for one key are unique, so this agrees
with Python's sort). -/
def sortByUpdatedDesc : List Conversation → List Conversation
  | [] => []
  | c :: cs => insertByUpdated c (sortByUpdatedDesc cs)

/-- HistoryManager._load_from_disk.  The argument is the result of
json.loads on the file text, `none` for a JSONDecodeError (which the
code catches, substituting an empty payload).  Iterating the payload in
the list comprehension succeeds on arrays, strings (their characters)
and dicts (their keys) and raises TypeError otherwise. -/
def jsonItems : Json → Except String (List Json)
  | .arr xs => .ok xs
  | .str s => .ok (s.toList.map (fun ch => Json.str (String.mk [ch])))
  | .obj kvs => .ok (kvs.map (fun kv => Json.str kv.fst))
  | _ => .error "TypeError: payload is not iterable"

def load_from_disk (payload : Option Json) : Except String (List Conversation) :=
  match payload with
  | none => .ok []
  | some j =>
    match jsonItems j with
    | .error e => .error e
    | .ok items =>
      match decodeList Conversation.from_dict items with
      | .error e => .error e
      | .ok cs => .ok (sortByUpdatedDesc cs)

/-- HistoryManager.__init__ on a missing history file: the file is
created holding an empty array and the collection loads empty. -/
def initStore (cfg : AppConfig) : HistoryManager :=
  { config := cfg, conversations := [], file := .arr [] }

/-- One public mutating call on the store. -/
inductive StoreOp where
  | create (id : String) (now : Int)
  | append (id : String) (msg : ChatMessage) (now : Int)
  | toggle (id : String) (now : Int)
  | removeTrailing (id : String) (now : Int)
  | deleteConv (id : String)
  | upsertConv (c : Conversation)

/-- Running one call; a call that raises leaves the store unchanged. -/
def applyOp (m : HistoryManager) : StoreOp → HistoryManager
  | .create id now => (create_conversation m id now).1
  | .append id msg now => (append_message m id msg now).1
  | .toggle id now => (toggle_favorite m id now).1
  | .removeTrailing id now => (remove_trailing_user_message m id now).1
  | .deleteConv id => (delete_conversation m id).1
  | .upsertConv c => upsert_conversation m c

def applyOps (m : HistoryManager) (ops : List StoreOp) : HistoryManager :=
  ops.foldl applyOp m

/-- Store states reachable through the public interface from a freshly
constructed store. -/
inductive Reachable : HistoryManager → Prop
  | init (cfg : AppConfig) : Reachable (initStore cfg)
  | step (op : StoreOp) {m : HistoryManager} : Reachable m → Reachable (applyOp m op)

def capOp : StoreOp → Bool
  | .create _ _ => true
  | .append _ _ _ => true
  | .toggle _ _ => true
  | _ => false

def nonUpsert : StoreOp → Bool
  | .upsertConv _ => false
  | _ => true

/-- The collection is already in recency order: updated_at weakly
decreasing along the list. -/
def sortedDescB : List Conversation → Bool
  | [] => true
  | [_] => true
  | a :: b :: rest => decide (b.updated_at ≤ a.updated_at) && sortedDescB (b :: rest)

/-- Python str.strip(): whitespace test, restricted to the ASCII
whitespace characters (the inputs at issue only involve newlines). -/
def isPyWS (c : Char) : Bool :=
  c = ' ' || c = '\t' || c = '\n' || c = '\r' || c = '\x0b' || c = '\x0c'

def dropLeadingWS : List Char → List Char
  | [] => []
  | c :: cs => if isPyWS c then dropLeadingWS cs else c :: cs

/-- Python str.strip(): drop whitespace from both ends. -/
def pyStrip (s : String) : String :=
  String.mk ((dropLeadingWS (dropLeadingWS s.data).reverse).reverse)

/-- A turn handed to the completion backend: one of the role/content
dicts that LocalLLM._build_prompt accumulates. -/
structure Turn where
  role : Role
  content : String
deriving DecidableEq

def toTurn (msg : ChatMessage) : Turn :=
  { role := msg.role, content := msg.content }

/-- Loop body of LocalLLM._normalize_messages, with the accumulator kept
reversed (head = most recently emitted turn): a message sharing the role
of the last emitted turn is folded into it with a blank-line separator. -/
def normStep (acc : List ChatMessage) (msg : ChatMessage) : List ChatMessage :=
  match acc with
  | [] => [msg]
  | last :: rest =>
    if last.role = msg.role then
      { last with content := last.content ++ "\n\n" ++ msg.content } :: rest
    else msg :: last :: rest

/-- LocalLLM._normalize_messages. -/
def normalize_messages (messages : List ChatMessage) : List ChatMessage :=
  (messages.foldl normStep []).reverse

/-- LocalLLM._build_prompt: coalesce, then inject the system prompt into
the first user turn (Python truthiness: None and the empty string both
skip injection). -/
def build_prompt (history : List ChatMessage) (system_prompt : Option String) : List Turn :=
  let messages := normalize_messages history
  match system_prompt with
  | some sp =>
    if sp = "" then messages.map toTurn
    else
      match messages with
      | [] => [{ role := Role.user, content := sp }]
      | first :: rest =>
        if first.role = Role.user then
          { role := Role.user, content := pyStrip (sp ++ "\n\n" ++ first.content) } :: rest.map toTurn
        else
          { role := Role.user, content := sp } :: (first :: rest).map toTurn
  | none => messages.map toTurn

/-- The coalescing step exactly as the specification words it: adjacent
same-role messages merge, transitively, into one turn whose content is
the blank-line-separated concatenation.  Stated as a right fold gluing
each message onto the coalesced remainder. -/
def glue (m : ChatMessage) (l : List ChatMessage) : List ChatMessage :=
  match l with
  | [] => [m]
  | n :: ns =>
    if m.role = n.role then
      { m with content := m.content ++ "\n\n" ++ n.content } :: ns
    else m :: n :: ns

def coalesce_spec : List ChatMessage → List ChatMessage
  | [] => []
  | m :: ms => glue m (coalesce_spec ms)

-- ### Concrete fixtures used by witnesses and counterexamples ###

def userMsg : ChatMessage := { role := Role.user, content := "hi", created_at := 0 }

def asstMsg : ChatMessage := { role := Role.assistant, content := "yo", created_at := 1 }

def convA : Conversation :=
  { conversation_id := "a", title := "t", messages := [], is_favorite := false,
    created_at := 0, updated_at := 5 }

def convB : Conversation :=
  { conversation_id := "b", title := "t", messages := [], is_favorite := true,
    created_at := 0, updated_at := 3 }

def convFavA : Conversation := { convA with is_favorite := true }

def convM : Conversation :=
  { conversation_id := "m", title := "t", messages := [userMsg], is_favorite := false,
    created_at := 0, updated_at := 0 }

def c1cfg : AppConfig := ⟨2, 1⟩

def c1state : HistoryManager :=
  applyOps (initStore c1cfg)
    [.create "b" 0, .append "b" userMsg 0, .create "a" 1, .removeTrailing "b" 2]

def c1wStore : HistoryManager :=
  { config := c1cfg, conversations := [convA, convB], file := Json.arr [] }

def store3 : HistoryManager :=
  { config := ⟨1, 1⟩, conversations := [convA], file := serialize [convA] }

def storeFavA : HistoryManager :=
  { config := ⟨2, 1⟩, conversations := [convFavA], file := serialize [convFavA] }

def store4w : HistoryManager :=
  { config := ⟨2, 1⟩, conversations := [convA, convB], file := serialize [convA, convB] }

def store7 : HistoryManager :=
  { config := ⟨5, 5⟩, conversations := [convM], file := serialize [convM] }

def storeOver : HistoryManager :=
  { config := ⟨1, 5⟩, conversations := [convA, convB], file := serialize [convA, convB] }

def storeFull : HistoryManager :=
  { config := ⟨1, 1⟩, conversations := [convFavA], file := serialize [convFavA] }

deriving instance DecidableEq for Except

-- ### Decomposition of find? ###

theorem find_split (id : String) :
    ∀ (cs : List Conversation) (c : Conversation),
      cs.find? (fun d => d.conversation_id = id) = some c →
      ∃ pre post, cs = pre ++ c :: post ∧ (∀ d ∈ pre, ¬ d.conversation_id = id) ∧
        c.conversation_id = id := by
  intro cs
  induction cs with
  | nil => intro c h; simp [List.find?] at h
  | cons a rest ih =>
    intro c h
    by_cases ha : a.conversation_id = id
    · rw [List.find?_cons_of_pos _ (by simpa using ha)] at h
      have hac : a = c := by injection h
      subst hac
      exact ⟨[], rest, rfl, by intro d hd; simp at hd, ha⟩
    · rw [List.find?_cons_of_neg _ (by simpa using ha)] at h
      obtain ⟨pre, post, hsplit, hpre, hc⟩ := ih c h
      exact ⟨a :: pre, post, by simp [hsplit], by
        intro d hd
        rcases List.mem_cons.mp hd with h1 | h2
        · exact h1 ▸ ha
        · exact hpre d h2, hc⟩

theorem replaceFirst_append (id : String) (c' : Conversation) :
    ∀ (pre : List Conversation) (c : Conversation) (post : List Conversation),
      (∀ d ∈ pre, ¬ d.conversation_id = id) → c.conversation_id = id →
      replaceFirst id c' (pre ++ c :: post) = pre ++ c' :: post := by
  intro pre
  induction pre with
  | nil => intro c post _ hc; simp [replaceFirst, hc]
  | cons a rest ih =>
    intro c post hpre hc
    have ha : ¬ a.conversation_id = id := hpre a (by simp)
    simp only [List.cons_append, replaceFirst, if_neg ha]
    exact congrArg (a :: ·) (ih c post (fun d hd => hpre d (by simp [hd])) hc)

theorem removeFirstById_append (id : String) :
    ∀ (pre : List Conversation) (c : Conversation) (post : List Conversation),
      (∀ d ∈ pre, ¬ d.conversation_id = id) → c.conversation_id = id →
      removeFirstById id (pre ++ c :: post) = pre ++ post := by
  intro pre
  induction pre with
  | nil => intro c post _ hc; simp [removeFirstById, hc]
  | cons a rest ih =>
    intro c post hpre hc
    have ha : ¬ a.conversation_id = id := hpre a (by simp)
    simp only [List.cons_append, removeFirstById, if_neg ha]
    exact congrArg (a :: ·) (ih c post (fun d hd => hpre d (by simp [hd])) hc)

theorem promote_append (c' : Conversation) :
    ∀ (pre post : List Conversation),
      (∀ d ∈ pre, ¬ d.conversation_id = c'.conversation_id) →
      promoteToTop c' (pre ++ c' :: post) = c' :: (pre ++ post) := by
  intro pre post hpre
  cases pre with
  | nil => simp [promoteToTop]
  | cons a rest =>
    have ha : ¬ a.conversation_id = c'.conversation_id := hpre a (by simp)
    simp only [List.cons_append, promoteToTop, if_neg ha]
    rw [show (a :: (rest ++ c' :: post)) = ((a :: rest) ++ c' :: post) from rfl,
        removeFirstById_append c'.conversation_id (a :: rest) c' post hpre rfl]
    simp

/-- The combined in-place update plus promotion performed by
append_message and toggle_favorite, on the decomposed list. -/
theorem mutate_promote (id : String) (c c' : Conversation)
    (pre post : List Conversation)
    (hpre : ∀ d ∈ pre, ¬ d.conversation_id = id) (hc : c.conversation_id = id)
    (hc' : c'.conversation_id = id) :
    promoteToTop c' (replaceFirst id c' (pre ++ c :: post)) = c' :: (pre ++ post) := by
  rw [replaceFirst_append id c' pre c post hpre hc]
  exact promote_append c' pre post (fun d hd => by rw [hc']; exact hpre d hd)

-- ### Enforcement lemmas ###

theorem minByUpdated_mem : ∀ (cs : List Conversation) (c : Conversation),
    minByUpdated c cs ∈ c :: cs := by
  intro cs
  induction cs with
  | nil => intro c; simp [minByUpdated]
  | cons d ds ih =>
    intro c
    have h0 : minByUpdated c (d :: ds) =
        minByUpdated (if d.updated_at < c.updated_at then d else c) ds := rfl
    rw [h0]
    rcases List.mem_cons.mp (ih (if d.updated_at < c.updated_at then d else c)) with h | h
    · rw [h]
      split
      · exact List.mem_cons_of_mem _ (List.mem_cons_self _ _)
      · exact List.mem_cons_self _ _
    · exact List.mem_cons_of_mem _ (List.mem_cons_of_mem _ h)

theorem oldest_spec {cs : List Conversation} {o : Conversation}
    (h : oldest_non_favorite cs = some o) : o ∈ cs ∧ o.is_favorite = false := by
  unfold oldest_non_favorite at h
  cases hf : cs.filter (fun c => !c.is_favorite) with
  | nil => rw [hf] at h; exact absurd h (by simp)
  | cons c rest =>
    rw [hf] at h
    have ho : minByUpdated c rest = o := by injection h
    have hmem : o ∈ c :: rest := ho ▸ minByUpdated_mem rest c
    have hmemf : o ∈ cs.filter (fun c => !c.is_favorite) := by rw [hf]; exact hmem
    refine ⟨List.mem_of_mem_filter hmemf, ?_⟩
    have := List.of_mem_filter hmemf
    simpa using this

theorem oldest_none_allfav {cs : List Conversation}
    (h : oldest_non_favorite cs = none) : ∀ c ∈ cs, c.is_favorite = true := by
  unfold oldest_non_favorite at h
  cases hf : cs.filter (fun c => !c.is_favorite) with
  | cons c rest => rw [hf] at h; simp at h
  | nil =>
    intro c hc
    have hnotin : ¬ (!c.is_favorite) = true := by
      intro hb
      have : c ∈ cs.filter (fun c => !c.is_favorite) := List.mem_filter.mpr ⟨hc, hb⟩
      rw [hf] at this
      simp at this
    simpa using hnotin

theorem removeFirstEq_length {t : Conversation} :
    ∀ {cs : List Conversation}, t ∈ cs → (removeFirstEq t cs).length + 1 = cs.length := by
  intro cs
  induction cs with
  | nil => intro h; simp at h
  | cons a rest ih =>
    intro h
    by_cases ha : a = t
    · simp [removeFirstEq, ha]
    · have hmem : t ∈ rest := by
        rcases List.mem_cons.mp h with h1 | h2
        · exact absurd h1.symm ha
        · exact h2
      have := ih hmem
      simp only [removeFirstEq, if_neg ha, List.length_cons]
      omega

theorem removeFirstEq_filter_fav {t : Conversation} (ht : t.is_favorite = false) :
    ∀ (cs : List Conversation),
      (removeFirstEq t cs).filter (fun c => c.is_favorite) =
        cs.filter (fun c => c.is_favorite) := by
  intro cs
  induction cs with
  | nil => rfl
  | cons a rest ih =>
    by_cases ha : a = t
    · subst ha
      simp [removeFirstEq, List.filter_cons, ht]
    · simp only [removeFirstEq, if_neg ha, List.filter_cons, ih]

theorem enforce_loop_post (cfg : AppConfig) :
    ∀ (fuel : Nat) (cs : List Conversation), cs.length ≤ fuel →
      (enforce_loop cfg fuel cs).length ≤ cfg.max_conversations ∨
        ∀ c ∈ enforce_loop cfg fuel cs, c.is_favorite = true := by
  intro fuel
  induction fuel with
  | zero =>
    intro cs hcs
    left
    simp only [enforce_loop]
    omega
  | succ fuel ih =>
    intro cs hcs
    by_cases hlen : cfg.max_conversations < cs.length
    · cases ho : oldest_non_favorite cs with
      | none =>
        right
        intro c hc
        simp only [enforce_loop, if_pos hlen, ho] at hc
        exact oldest_none_allfav ho c hc
      | some o =>
        have hom := (oldest_spec ho).1
        have hlen2 : (removeFirstEq o cs).length ≤ fuel := by
          have := removeFirstEq_length hom
          omega
        simp only [enforce_loop, if_pos hlen, ho]
        exact ih (removeFirstEq o cs) hlen2
    · left
      simp only [enforce_loop, if_neg hlen]
      omega

theorem enforce_loop_filter (cfg : AppConfig) :
    ∀ (fuel : Nat) (cs : List Conversation),
      (enforce_loop cfg fuel cs).filter (fun c => c.is_favorite) =
        cs.filter (fun c => c.is_favorite) := by
  intro fuel
  induction fuel with
  | zero => intro cs; rfl
  | succ fuel ih =>
    intro cs
    by_cases hlen : cfg.max_conversations < cs.length
    · cases ho : oldest_non_favorite cs with
      | none => simp [enforce_loop, if_pos hlen, ho]
      | some o =>
        simp only [enforce_loop, if_pos hlen, ho]
        rw [ih, removeFirstEq_filter_fav (oldest_spec ho).2]
    · simp [enforce_loop, if_neg hlen]

-- ### Sort lemmas ###

theorem insertByUpdated_perm (c : Conversation) :
    ∀ (l : List Conversation), List.Perm (insertByUpdated c l) (c :: l) := by
  intro l
  induction l with
  | nil => simp [insertByUpdated]
  | cons d ds ih =>
    by_cases h : d.updated_at ≤ c.updated_at
    · simp [insertByUpdated, if_pos h]
    · simp only [insertByUpdated, if_neg h]
      exact (List.Perm.cons d ih).trans (List.Perm.swap c d ds)

theorem sortByUpdatedDesc_perm :
    ∀ (l : List Conversation), List.Perm (sortByUpdatedDesc l) l := by
  intro l
  induction l with
  | nil => simp [sortByUpdatedDesc]
  | cons c cs ih =>
    exact (insertByUpdated_perm c (sortByUpdatedDesc cs)).trans (List.Perm.cons c ih)

theorem sortByUpdatedDesc_sorted_fixed :
    ∀ (l : List Conversation), sortedDescB l = true → sortByUpdatedDesc l = l := by
  intro l
  induction l with
  | nil => intro _; rfl
  | cons c cs ih =>
    intro h
    cases cs with
    | nil => rfl
    | cons d ds =>
      have hparts : d.updated_at ≤ c.updated_at ∧ sortedDescB (d :: ds) = true := by
        have := h
        simp only [sortedDescB, Bool.and_eq_true, decide_eq_true_eq] at this
        exact this
      have hrec : sortByUpdatedDesc (d :: ds) = d :: ds := ih hparts.2
      show insertByUpdated c (sortByUpdatedDesc (d :: ds)) = c :: d :: ds
      rw [hrec]
      simp [insertByUpdated, if_pos hparts.1]

-- ### Serialization round trip ###

theorem msg_roundtrip (msg : ChatMessage) :
    ChatMessage.from_dict (ChatMessage.to_dict msg) = .ok msg := by
  cases msg with
  | mk role content t => cases role <;> rfl

theorem decode_map_msgs : ∀ (l : List ChatMessage),
    decodeList ChatMessage.from_dict (l.map ChatMessage.to_dict) = .ok l := by
  intro l
  induction l with
  | nil => rfl
  | cons msg rest ih =>
    show decodeList ChatMessage.from_dict
        (ChatMessage.to_dict msg :: rest.map ChatMessage.to_dict) = _
    simp only [decodeList, msg_roundtrip, ih]

theorem conv_roundtrip (c : Conversation) :
    Conversation.from_dict (Conversation.to_dict c) = .ok c := by
  cases c with
  | mk cid title msgs fav ca ua =>
    rw [show Conversation.from_dict
          (Conversation.to_dict ⟨cid, title, msgs, fav, ca, ua⟩) =
        (match decodeList ChatMessage.from_dict (msgs.map ChatMessage.to_dict) with
         | .ok l => Except.ok (⟨cid, title, l, fav, ca, ua⟩ : Conversation)
         | .error e => Except.error e) from rfl,
        decode_map_msgs]

theorem decode_map_convs : ∀ (l : List Conversation),
    decodeList Conversation.from_dict (l.map Conversation.to_dict) = .ok l := by
  intro l
  induction l with
  | nil => rfl
  | cons c rest ih =>
    show decodeList Conversation.from_dict
        (Conversation.to_dict c :: rest.map Conversation.to_dict) = _
    simp only [decodeList, conv_roundtrip, ih]

theorem load_serialize (cs : List Conversation) :
    load_from_disk (some (serialize cs)) = .ok (sortByUpdatedDesc cs) := by
  show (match decodeList Conversation.from_dict (cs.map Conversation.to_dict) with
        | .error e => Except.error e
        | .ok l => Except.ok (sortByUpdatedDesc l)) = _
  rw [decode_map_convs]

-- ### Coalescing lemmas ###

theorem str_append_assoc (a b c : String) : (a ++ b) ++ c = a ++ (b ++ c) := by
  cases a with
  | mk da =>
    cases b with
    | mk db =>
      cases c with
      | mk dc =>
        show String.mk ((da ++ db) ++ dc) = String.mk (da ++ (db ++ dc))
        rw [List.append_assoc]

theorem glue_head_role (m : ChatMessage) :
    ∀ (l : List ChatMessage), (glue m l).head?.map ChatMessage.role = some m.role := by
  intro l
  cases l with
  | nil => rfl
  | cons n ns =>
    by_cases h : m.role = n.role
    · simp [glue, if_pos h]
    · simp [glue, if_neg h]

theorem glue_merge (last m : ChatMessage) (hrole : last.role = m.role) :
    ∀ (l : List ChatMessage),
      glue { last with content := last.content ++ "\n\n" ++ m.content } l =
        glue last (glue m l) := by
  intro l
  cases l with
  | nil => simp [glue, hrole]
  | cons n ns =>
    by_cases h : m.role = n.role
    · have h' : last.role = n.role := hrole.trans h
      simp only [glue, if_pos h, if_pos h']
      rw [if_pos hrole]
      simp [str_append_assoc]
    · have h' : ¬ last.role = n.role := fun hc => h (hrole.symm.trans hc)
      simp only [glue, if_neg h, if_neg h']
      rw [if_pos hrole]

theorem glue_skip (last m : ChatMessage) (hrole : ¬ last.role = m.role) :
    ∀ (l : List ChatMessage), glue last (glue m l) = last :: glue m l := by
  intro l
  cases hg : glue m l with
  | nil =>
    have := glue_head_role m l
    rw [hg] at this
    simp at this
  | cons n ns =>
    have hn : n.role = m.role := by
      have := glue_head_role m l
      rw [hg] at this
      simpa using this
    have h' : ¬ last.role = n.role := fun hc => hrole (hc.trans hn)
    simp [glue, if_neg h']

theorem foldl_norm_glue :
    ∀ (ms : List ChatMessage) (last : ChatMessage) (rest : List ChatMessage),
      (List.foldl normStep (last :: rest) ms).reverse =
        rest.reverse ++ glue last (coalesce_spec ms) := by
  intro ms
  induction ms with
  | nil => intro last rest; simp [coalesce_spec, glue]
  | cons m ms ih =>
    intro last rest
    by_cases h : last.role = m.role
    · have hfold : List.foldl normStep (last :: rest) (m :: ms) =
          List.foldl normStep ({ last with content := last.content ++ "\n\n" ++ m.content } :: rest) ms := by
        simp [List.foldl, normStep, if_pos h]
      rw [hfold, ih, show coalesce_spec (m :: ms) = glue m (coalesce_spec ms) from rfl,
          glue_merge last m h]
    · have hfold : List.foldl normStep (last :: rest) (m :: ms) =
          List.foldl normStep (m :: last :: rest) ms := by
        simp [List.foldl, normStep, if_neg h]
      rw [hfold, ih, show coalesce_spec (m :: ms) = glue m (coalesce_spec ms) from rfl,
          glue_skip last m h]
      simp

theorem normalize_eq_coalesce (ms : List ChatMessage) :
    normalize_messages ms = coalesce_spec ms := by
  cases ms with
  | nil => rfl
  | cons m rest =>
    show (List.foldl normStep (normStep [] m) rest).reverse = _
    rw [show normStep [] m = ([m] : List ChatMessage) from rfl,
        foldl_norm_glue rest m []]
    rfl

-- ### Operation shapes ###

def allFav (cs : List Conversation) : Prop := ∀ c ∈ cs, c.is_favorite = true

def capOkList (cfg : AppConfig) (cs : List Conversation) : Prop :=
  cs.length ≤ cfg.max_conversations ∨ allFav cs

theorem enforce_limits_post (m : HistoryManager) :
    capOkList m.config (enforce_limits m).conversations :=
  enforce_loop_post m.config m.conversations.length m.conversations (Nat.le_refl _)

theorem enforce_limits_filter (m : HistoryManager) :
    (enforce_limits m).conversations.filter (fun c => c.is_favorite) =
      m.conversations.filter (fun c => c.is_favorite) :=
  enforce_loop_filter m.config m.conversations.length m.conversations

theorem append_message_decomp (m : HistoryManager) (id : String) (msg : ChatMessage)
    (now : Int) (c : Conversation) (h : findConversation m id = some c) :
    ∃ pre post, m.conversations = pre ++ c :: post ∧
      (∀ d ∈ pre, ¬ d.conversation_id = id) ∧ c.conversation_id = id ∧
      append_message m id msg now =
        (persist { m with conversations :=
            { c with messages := c.messages ++ [msg], updated_at := now } :: (pre ++ post) },
         .ok { c with messages := c.messages ++ [msg], updated_at := now }) := by
  obtain ⟨pre, post, hsplit, hpre, hc⟩ := find_split id m.conversations c h
  refine ⟨pre, post, hsplit, hpre, hc, ?_⟩
  simp only [append_message, h]
  rw [show promoteToTop { c with messages := c.messages ++ [msg], updated_at := now }
        (replaceFirst id { c with messages := c.messages ++ [msg], updated_at := now }
          m.conversations) =
      { c with messages := c.messages ++ [msg], updated_at := now } :: (pre ++ post) by
    rw [hsplit]
    exact mutate_promote id c _ pre post hpre hc hc]

theorem toggle_guard_raise (m : HistoryManager) (id : String) (now : Int)
    (c : Conversation) (h : findConversation m id = some c)
    (hguard : (!c.is_favorite) = true ∧ m.config.max_favorites ≤ favorite_count m) :
    toggle_favorite m id now = (m, .error .favoriteLimit) := by
  simp only [toggle_favorite, h, if_pos hguard]

theorem toggle_decomp (m : HistoryManager) (id : String) (now : Int)
    (c : Conversation) (h : findConversation m id = some c)
    (hguard : ¬ ((!c.is_favorite) = true ∧ m.config.max_favorites ≤ favorite_count m)) :
    ∃ pre post, m.conversations = pre ++ c :: post ∧
      (∀ d ∈ pre, ¬ d.conversation_id = id) ∧ c.conversation_id = id ∧
      toggle_favorite m id now =
        (persist (enforce_limits { m with conversations :=
            { c with is_favorite := !c.is_favorite, updated_at := now } :: (pre ++ post) }),
         .ok { c with is_favorite := !c.is_favorite, updated_at := now }) := by
  obtain ⟨pre, post, hsplit, hpre, hc⟩ := find_split id m.conversations c h
  refine ⟨pre, post, hsplit, hpre, hc, ?_⟩
  simp only [toggle_favorite, h, if_neg hguard]
  rw [show promoteToTop { c with is_favorite := !c.is_favorite, updated_at := now }
        (replaceFirst id { c with is_favorite := !c.is_favorite, updated_at := now }
          m.conversations) =
      { c with is_favorite := !c.is_favorite, updated_at := now } :: (pre ++ post) by
    rw [hsplit]
    exact mutate_promote id c _ pre post hpre hc hc]

theorem remove_trailing_noop (m : HistoryManager) (id : String) (now : Int)
    (c : Conversation) (h : findConversation m id = some c)
    (hno : c.messages = [] ∨ ¬ (c.messages.getLast?).map ChatMessage.role = some Role.user) :
    remove_trailing_user_message m id now = (m, .ok c) := by
  simp only [remove_trailing_user_message, h]
  rcases hno with hempty | hrole
  · rw [hempty]
    rfl
  · cases hlast : c.messages.getLast? with
    | none => rfl
    | some last =>
      rw [hlast] at hrole
      have : ¬ last.role = Role.user := by simpa using hrole
      simp only [if_neg this]

theorem remove_trailing_removes (m : HistoryManager) (id : String) (now : Int)
    (c : Conversation) (last : ChatMessage) (h : findConversation m id = some c)
    (hlast : c.messages.getLast? = some last) (hrole : last.role = Role.user) :
    remove_trailing_user_message m id now =
      (persist { m with conversations :=
          (replaceFirst id { c with messages := c.messages.dropLast, updated_at := now }
            m.conversations) },
       .ok { c with messages := c.messages.dropLast, updated_at := now }) := by
  simp only [remove_trailing_user_message, h, hlast, if_pos hrole]

-- ### Per-operation invariants ###

theorem applyOp_config (m : HistoryManager) (op : StoreOp) :
    (applyOp m op).config = m.config := by
  cases op with
  | create id now => rfl
  | append id msg now =>
    show (append_message m id msg now).1.config = m.config
    unfold append_message
    cases findConversation m id <;> rfl
  | toggle id now =>
    show (toggle_favorite m id now).1.config = m.config
    unfold toggle_favorite
    cases findConversation m id with
    | none => rfl
    | some c =>
      dsimp only
      split <;> rfl
  | removeTrailing id now =>
    show (remove_trailing_user_message m id now).1.config = m.config
    unfold remove_trailing_user_message
    cases findConversation m id with
    | none => rfl
    | some c =>
      dsimp only
      cases c.messages.getLast? with
      | none => rfl
      | some last =>
        dsimp only
        split <;> rfl
  | deleteConv id =>
    show (delete_conversation m id).1.config = m.config
    unfold delete_conversation
    cases findConversation m id <;> rfl
  | upsertConv c =>
    show (upsert_conversation m c).config = m.config
    unfold upsert_conversation
    cases findConversation m c.conversation_id <;> rfl

theorem capOk_applyOp (m : HistoryManager) (op : StoreOp) (hop : capOp op = true)
    (hcap : capOkList m.config m.conversations) :
    capOkList m.config (applyOp m op).conversations := by
  cases op with
  | create id now =>
    exact enforce_limits_post
      { m with conversations := new_conversation id now :: m.conversations }
  | append id msg now =>
    cases h : findConversation m id with
    | none =>
      show capOkList m.config (append_message m id msg now).1.conversations
      simp only [append_message, h]
      exact hcap
    | some c =>
      obtain ⟨pre, post, hsplit, hpre, hc, heq⟩ := append_message_decomp m id msg now c h
      show capOkList m.config (append_message m id msg now).1.conversations
      rw [heq]
      show capOkList m.config
        ({ c with messages := c.messages ++ [msg], updated_at := now } :: (pre ++ post))
      rcases hcap with hlen | hfav
      · left
        rw [hsplit] at hlen
        simp only [List.length_append, List.length_cons] at hlen ⊢
        omega
      · right
        intro d hd
        rcases List.mem_cons.mp hd with rfl | hd'
        · exact hfav c (by rw [hsplit]; simp)
        · rcases List.mem_append.mp hd' with h1 | h2
          · exact hfav d (by rw [hsplit]; simp [h1])
          · exact hfav d (by rw [hsplit]; simp [h2])
  | toggle id now =>
    cases h : findConversation m id with
    | none =>
      show capOkList m.config (toggle_favorite m id now).1.conversations
      simp only [toggle_favorite, h]
      exact hcap
    | some c =>
      by_cases hg : (!c.is_favorite) = true ∧ m.config.max_favorites ≤ favorite_count m
      · show capOkList m.config (toggle_favorite m id now).1.conversations
        rw [toggle_guard_raise m id now c h hg]
        exact hcap
      · obtain ⟨pre, post, hsplit, hpre, hc, heq⟩ := toggle_decomp m id now c h hg
        show capOkList m.config (toggle_favorite m id now).1.conversations
        rw [heq]
        exact enforce_limits_post
          { m with conversations :=
              { c with is_favorite := !c.is_favorite, updated_at := now } :: (pre ++ post) }
  | removeTrailing id now => simp [capOp] at hop
  | deleteConv id => simp [capOp] at hop
  | upsertConv c => simp [capOp] at hop

theorem capOk_applyOps (ops : List StoreOp) :
    ∀ (m : HistoryManager), (∀ op ∈ ops, capOp op = true) →
      capOkList m.config m.conversations →
      capOkList m.config (applyOps m ops).conversations := by
  induction ops with
  | nil => intro m _ hcap; exact hcap
  | cons op rest ih =>
    intro m hops hcap
    show capOkList m.config (applyOps (applyOp m op) rest).conversations
    have hcfg := applyOp_config m op
    have step := capOk_applyOp m op (hops op (by simp)) hcap
    have hrec := ih (applyOp m op) (fun o ho => hops o (by simp [ho]))
      (by rw [hcfg]; exact step)
    rw [hcfg] at hrec
    exact hrec

theorem enforce_limits_countP (m : HistoryManager) :
    List.countP (fun c => c.is_favorite) (enforce_limits m).conversations =
      List.countP (fun c => c.is_favorite) m.conversations := by
  rw [List.countP_eq_length_filter, List.countP_eq_length_filter, enforce_limits_filter]

theorem removeFirstById_countP_le (id : String) :
    ∀ (cs : List Conversation),
      List.countP (fun c => c.is_favorite) (removeFirstById id cs) ≤
        List.countP (fun c => c.is_favorite) cs := by
  intro cs
  induction cs with
  | nil => simp [removeFirstById]
  | cons a rest ih =>
    by_cases ha : a.conversation_id = id
    · simp only [removeFirstById, if_pos ha, List.countP_cons]
      omega
    · simp only [removeFirstById, if_neg ha, List.countP_cons]
      omega

theorem favCount_applyOp (m : HistoryManager) (op : StoreOp) (hop : nonUpsert op = true)
    (hfav : favorite_count m ≤ m.config.max_favorites) :
    favorite_count (applyOp m op) ≤ m.config.max_favorites := by
  cases op with
  | create id now =>
    show List.countP (fun c => c.is_favorite)
      (enforce_limits { m with conversations := new_conversation id now :: m.conversations }).conversations ≤ _
    rw [enforce_limits_countP]
    show List.countP (fun c => c.is_favorite) (new_conversation id now :: m.conversations) ≤ _
    rw [List.countP_cons]
    have : favorite_count m = List.countP (fun c => c.is_favorite) m.conversations := rfl
    simp [new_conversation]
    omega
  | append id msg now =>
    cases h : findConversation m id with
    | none =>
      show favorite_count (append_message m id msg now).1 ≤ _
      simp only [append_message, h]
      exact hfav
    | some c =>
      obtain ⟨pre, post, hsplit, hpre, hc, heq⟩ := append_message_decomp m id msg now c h
      show favorite_count (append_message m id msg now).1 ≤ _
      rw [heq]
      show List.countP (fun x => x.is_favorite)
        ({ c with messages := c.messages ++ [msg], updated_at := now } :: (pre ++ post)) ≤ _
      have h0 : favorite_count m =
          List.countP (fun x => x.is_favorite) (pre ++ c :: post) := by
        show List.countP (fun x => x.is_favorite) m.conversations = _
        rw [hsplit]
      rw [h0, List.countP_append, List.countP_cons] at hfav
      rw [List.countP_cons, List.countP_append]
      dsimp only
      omega
  | toggle id now =>
    cases h : findConversation m id with
    | none =>
      show favorite_count (toggle_favorite m id now).1 ≤ _
      simp only [toggle_favorite, h]
      exact hfav
    | some c =>
      by_cases hg : (!c.is_favorite) = true ∧ m.config.max_favorites ≤ favorite_count m
      · show favorite_count (toggle_favorite m id now).1 ≤ _
        rw [toggle_guard_raise m id now c h hg]
        exact hfav
      · obtain ⟨pre, post, hsplit, hpre, hc, heq⟩ := toggle_decomp m id now c h hg
        show favorite_count (toggle_favorite m id now).1 ≤ _
        rw [heq]
        show List.countP (fun x => x.is_favorite)
          (enforce_limits { m with conversations :=
            ({ c with is_favorite := !c.is_favorite, updated_at := now } :: (pre ++ post)) }).conversations ≤ _
        rw [enforce_limits_countP]
        show List.countP (fun x => x.is_favorite)
          ({ c with is_favorite := !c.is_favorite, updated_at := now } :: (pre ++ post)) ≤ _
        have h0 : favorite_count m =
            List.countP (fun x => x.is_favorite) (pre ++ c :: post) := by
          show List.countP (fun x => x.is_favorite) m.conversations = _
          rw [hsplit]
        rw [List.countP_cons, List.countP_append]
        dsimp only
        cases cf : c.is_favorite with
        | true =>
          rw [h0, List.countP_append, List.countP_cons] at hfav
          simp only [cf] at hfav ⊢
          simp only [Bool.not_true]
          norm_num at hfav ⊢
          omega
        | false =>
          have hlt : ¬ m.config.max_favorites ≤ favorite_count m := by
            intro hle
            exact hg ⟨by rw [cf]; rfl, hle⟩
          rw [h0, List.countP_append, List.countP_cons] at hlt
          simp only [cf] at hlt ⊢
          simp only [Bool.not_false]
          norm_num at hlt ⊢
          omega
  | removeTrailing id now =>
    cases h : findConversation m id with
    | none =>
      show favorite_count (remove_trailing_user_message m id now).1 ≤ _
      simp only [remove_trailing_user_message, h]
      exact hfav
    | some c =>
      cases hlast : c.messages.getLast? with
      | none =>
        show favorite_count (remove_trailing_user_message m id now).1 ≤ _
        rw [remove_trailing_noop m id now c h (Or.inr (by rw [hlast]; simp))]
        exact hfav
      | some last =>
        by_cases hrole : last.role = Role.user
        · obtain ⟨pre, post, hsplit, hpre, hc⟩ := find_split id m.conversations c h
          show favorite_count (remove_trailing_user_message m id now).1 ≤ _
          rw [remove_trailing_removes m id now c last h hlast hrole]
          show List.countP (fun x => x.is_favorite)
            (replaceFirst id { c with messages := c.messages.dropLast, updated_at := now }
              m.conversations) ≤ _
          rw [hsplit, replaceFirst_append id _ pre c post hpre hc]
          have h0 : favorite_count m =
              List.countP (fun x => x.is_favorite) (pre ++ c :: post) := by
            show List.countP (fun x => x.is_favorite) m.conversations = _
            rw [hsplit]
          rw [h0, List.countP_append, List.countP_cons] at hfav
          rw [List.countP_append, List.countP_cons]
          dsimp only
          omega
        · show favorite_count (remove_trailing_user_message m id now).1 ≤ _
          rw [remove_trailing_noop m id now c h (Or.inr (by rw [hlast]; simpa using hrole))]
          exact hfav
  | deleteConv id =>
    cases h : findConversation m id with
    | none =>
      show favorite_count (delete_conversation m id).1 ≤ _
      simp only [delete_conversation, h]
      exact hfav
    | some c =>
      show favorite_count (delete_conversation m id).1 ≤ _
      simp only [delete_conversation, h]
      show List.countP (fun x => x.is_favorite) (removeFirstById id m.conversations) ≤ _
      exact le_trans (removeFirstById_countP_le id m.conversations) hfav
  | upsertConv c => simp [nonUpsert] at hop

theorem favCount_applyOps (ops : List StoreOp) :
    ∀ (m : HistoryManager), (∀ op ∈ ops, nonUpsert op = true) →
      favorite_count m ≤ m.config.max_favorites →
      favorite_count (applyOps m ops) ≤ m.config.max_favorites := by
  induction ops with
  | nil => intro m _ hfav; exact hfav
  | cons op rest ih =>
    intro m hops hfav
    show favorite_count (applyOps (applyOp m op) rest) ≤ m.config.max_favorites
    have hcfg := applyOp_config m op
    have step := favCount_applyOp m op (hops op (by simp)) hfav
    have hrec := ih (applyOp m op) (fun o ho => hops o (by simp [ho]))
      (by rw [hcfg]; exact step)
    rw [hcfg] at hrec
    exact hrec

theorem enforce_loop_id (cfg : AppConfig) (fuel : Nat) (cs : List Conversation)
    (h : ¬ cfg.max_conversations < cs.length) : enforce_loop cfg fuel cs = cs := by
  cases fuel with
  | zero => rfl
  | succ fuel => simp only [enforce_loop, if_neg h]

theorem allfav_filter_nonfav_nil :
    ∀ (cs : List Conversation), (∀ c ∈ cs, c.is_favorite = true) →
      cs.filter (fun c => !c.is_favorite) = [] := by
  intro cs
  induction cs with
  | nil => intro _; rfl
  | cons a rest ih =>
    intro h
    have ha := h a (by simp)
    simp only [List.filter_cons, ha, Bool.not_true]
    exact ih (fun c hc => h c (by simp [hc]))

-- ### Claim theorems ###

/-- C9: the loader is not total.  json.loads of a file holding the text
5 succeeds with a non-iterable payload; the record list comprehension
then raises TypeError, so constructing the store over that file fails.
Only a json.JSONDecodeError is caught and turned into an empty
collection (second conjunct), contradicting the stated property that
any malformed content loads as an empty collection. -/
theorem claim9_load_raises :
    load_from_disk (some (Json.num 5)) = .error "TypeError: payload is not iterable"
    ∧ load_from_disk none = .ok [] := ⟨rfl, rfl⟩

/-- C1 (amended): persisting then reloading preserves the set of
conversation ids for every store state (the reloaded collection is a
permutation of the in-memory one), and it reproduces the in-memory
recency order exactly when the in-memory collection is already ordered
by updated_at descending — which create, append and toggle maintain, but
remove_trailing_user_message (which refreshes updated_at without
promoting) does not. -/
theorem claim1_roundtrip_amended (m : HistoryManager) :
    load_from_disk (some (persist m).file) = .ok (sortByUpdatedDesc m.conversations)
    ∧ List.Perm (sortByUpdatedDesc m.conversations) m.conversations
    ∧ (sortedDescB m.conversations = true →
        sortByUpdatedDesc m.conversations = m.conversations) :=
  ⟨load_serialize m.conversations, sortByUpdatedDesc_perm m.conversations,
   fun h => sortByUpdatedDesc_sorted_fixed m.conversations h⟩

/-- Witness for claim1_roundtrip_amended at a concrete store whose
collection is ordered by updated_at descending. -/
theorem claim1_roundtrip_amended_witness :
    load_from_disk (some (persist c1wStore).file) = .ok (sortByUpdatedDesc c1wStore.conversations)
    ∧ sortByUpdatedDesc c1wStore.conversations = c1wStore.conversations :=
  ⟨(claim1_roundtrip_amended c1wStore).1,
   (claim1_roundtrip_amended c1wStore).2.2 (by decide)⟩

/-- C1 counterexample: a reachable store state (create b; append a user
message to b; create a; remove the trailing user message of b) whose
in-memory order is a, b but whose persisted file reloads as b, a: the
round trip does not preserve recency order after
remove_trailing_user_message. -/
theorem claim1_counterexample :
    Reachable c1state
    ∧ (load_from_disk (some (persist c1state).file)).map
        (List.map Conversation.conversation_id) = .ok ["b", "a"]
    ∧ c1state.conversations.map Conversation.conversation_id = ["a", "b"]
    ∧ (["b", "a"] : List String) ≠ ["a", "b"] := by
  refine ⟨?_, by decide, by decide, by decide⟩
  exact Reachable.step (.removeTrailing "b" 2)
    (Reachable.step (.create "a" 1)
      (Reachable.step (.append "b" userMsg 0)
        (Reachable.step (.create "b" 0) (Reachable.init c1cfg))))

/-- C2: starting from a store whose collection is within the bound, any
sequence of create_conversation / append_message / toggle_favorite calls
leaves the collection length at most max_conversations unless every
conversation is a favorite; and on every store state — over-capacity
evicting states included — capacity enforcement preserves the favorite
sublist exactly (it removes only non-favorites), so a favorite
conversation is never removed by capacity enforcement. -/
theorem claim2_capacity (m : HistoryManager) (ops : List StoreOp) (s : HistoryManager)
    (hops : ∀ op ∈ ops, capOp op = true)
    (hlen : m.conversations.length ≤ m.config.max_conversations) :
    ((applyOps m ops).conversations.length ≤ m.config.max_conversations
      ∨ ∀ c ∈ (applyOps m ops).conversations, c.is_favorite = true)
    ∧ (enforce_limits s).conversations.filter (fun c => c.is_favorite) =
        s.conversations.filter (fun c => c.is_favorite) :=
  ⟨capOk_applyOps ops m hops (Or.inl hlen), enforce_limits_filter s⟩

/-- Witness for claim2_capacity: two creates against a bound of one, and
an over-capacity store on which enforcement really evicts: it removes
the non-favorite conversation and keeps the favorite one (the final
conjunct evaluates the eviction). -/
theorem claim2_capacity_witness :
    ((applyOps (initStore ⟨1, 1⟩) [StoreOp.create "a" 0, StoreOp.create "b" 1]).conversations.length ≤ 1
      ∨ ∀ c ∈ (applyOps (initStore ⟨1, 1⟩) [StoreOp.create "a" 0, StoreOp.create "b" 1]).conversations,
          c.is_favorite = true)
    ∧ (enforce_limits storeOver).conversations.filter (fun c => c.is_favorite) =
        storeOver.conversations.filter (fun c => c.is_favorite)
    ∧ (enforce_limits storeOver).conversations = [convB]
    ∧ convA.is_favorite = false ∧ convB.is_favorite = true
    ∧ storeOver.config.max_conversations < storeOver.conversations.length :=
  ⟨(claim2_capacity (initStore ⟨1, 1⟩) [StoreOp.create "a" 0, StoreOp.create "b" 1] storeOver
      (by decide) (by decide)).1,
   (claim2_capacity (initStore ⟨1, 1⟩) [StoreOp.create "a" 0, StoreOp.create "b" 1] storeOver
      (by decide) (by decide)).2,
   by decide, by decide, by decide, by decide⟩

/-- C3 counterexample: a store at capacity (bound one, one non-favorite
conversation) where upsert of a conversation with a fresh id leaves the
collection above the bound: upsert_conversation never runs capacity
enforcement, contradicting the claim that enforcement runs after any
insertion. -/
theorem claim3_counterexample :
    store3.conversations.length = store3.config.max_conversations
    ∧ convA.is_favorite = false ∧ convA ∈ store3.conversations
    ∧ findConversation store3 convB.conversation_id = none
    ∧ store3.config.max_conversations <
        (upsert_conversation store3 convB).conversations.length := by decide

/-- C3 (amended): upsert with a fresh id inserts the conversation at
position 0 and persists, but performs no capacity enforcement, so the
collection always grows by one — even past max_conversations. -/
theorem claim3_upsert_amended (m : HistoryManager) (c : Conversation)
    (h : findConversation m c.conversation_id = none) :
    upsert_conversation m c = persist { m with conversations := c :: m.conversations }
    ∧ (upsert_conversation m c).conversations.length = m.conversations.length + 1 := by
  constructor
  · simp only [upsert_conversation, h]
  · simp only [upsert_conversation, h]
    rfl

/-- Witness for claim3_upsert_amended on the concrete full store. -/
theorem claim3_upsert_amended_witness :
    upsert_conversation store3 convB =
      persist { store3 with conversations := convB :: store3.conversations }
    ∧ (upsert_conversation store3 convB).conversations.length =
        store3.conversations.length + 1 :=
  claim3_upsert_amended store3 convB (by decide)

/-- C4 counterexample: the favorite bound is not preserved by every
store operation: upsert of a favorite-flagged conversation is not
guarded, so a store at the favorite limit exceeds it after one upsert. -/
theorem claim4_counterexample :
    favorite_count storeFavA ≤ storeFavA.config.max_favorites
    ∧ storeFavA.config.max_favorites <
        favorite_count (applyOps storeFavA [StoreOp.upsertConv convB]) := by decide

/-- C4 (amended): toggle_favorite on a non-favorite conversation when
the favorite count is already at the limit fails with the favorite-limit
error and returns the store completely unchanged; and the favorite count
stays at most max_favorites under any sequence of store operations other
than upsert (which inserts unchecked). -/
theorem claim4_favorites_amended :
    (∀ (m : HistoryManager) (id : String) (now : Int) (c : Conversation),
       findConversation m id = some c → c.is_favorite = false →
       m.config.max_favorites ≤ favorite_count m →
       toggle_favorite m id now = (m, .error .favoriteLimit))
    ∧ (∀ (m : HistoryManager) (ops : List StoreOp),
       (∀ op ∈ ops, nonUpsert op = true) →
       favorite_count m ≤ m.config.max_favorites →
       favorite_count (applyOps m ops) ≤ m.config.max_favorites) := by
  constructor
  · intro m id now c h hnf hcount
    exact toggle_guard_raise m id now c h ⟨by rw [hnf]; rfl, hcount⟩
  · intro m ops hops hfav
    exact favCount_applyOps ops m hops hfav

/-- Witness for claim4_favorites_amended: a rejected toggle on a
concrete store at its favorite limit, and a bounded count after a
create. -/
theorem claim4_favorites_amended_witness :
    toggle_favorite store4w "a" 7 = (store4w, .error .favoriteLimit)
    ∧ favorite_count (applyOps store4w [StoreOp.create "z" 9]) ≤ store4w.config.max_favorites :=
  ⟨claim4_favorites_amended.1 store4w "a" 7 convA (by decide) (by decide) (by decide),
   claim4_favorites_amended.2 store4w [StoreOp.create "z" 9] (by decide) (by decide)⟩

/-- C5 counterexample: with instruction S and coalesced first user turn
of empty content, the code emits content S (str.strip() is applied to
the combined text), not the claimed instruction, blank line, then
original content (which would be S followed by a blank line). -/
theorem claim5_counterexample :
    build_prompt [{ role := Role.user, content := "", created_at := 0 }] (some "S")
      = [{ role := Role.user, content := "S" }]
    ∧ ({ role := Role.user, content := "S" } : Turn)
      ≠ { role := Role.user, content := "S" ++ "\n\n" ++ "" } := by decide

/-- C5 (amended): for a non-empty instruction, the injection step emits
a single user turn with exactly the instruction on an empty coalesced
sequence; replaces a leading user turn by a user turn whose content is
the instruction, a blank line and the original content, with surrounding
whitespace stripped from the combination; and prepends a user turn with
exactly the instruction before a leading assistant turn, with all other
turns unchanged. -/
theorem claim5_injection_amended (sp : String) (hsp : ¬ sp = "")
    (history : List ChatMessage) :
    (normalize_messages history = [] →
      build_prompt history (some sp) = [{ role := Role.user, content := sp }])
    ∧ (∀ first rest, normalize_messages history = first :: rest →
        (first.role = Role.user →
          build_prompt history (some sp) =
            { role := Role.user, content := pyStrip (sp ++ "\n\n" ++ first.content) }
              :: rest.map toTurn)
        ∧ (first.role = Role.assistant →
          build_prompt history (some sp) =
            { role := Role.user, content := sp } :: (first :: rest).map toTurn)) := by
  have hb0 : build_prompt history (some sp) =
      (if sp = "" then (normalize_messages history).map toTurn
       else
        match normalize_messages history with
        | [] => [{ role := Role.user, content := sp }]
        | first :: rest =>
          if first.role = Role.user then
            { role := Role.user, content := pyStrip (sp ++ "\n\n" ++ first.content) }
              :: rest.map toTurn
          else { role := Role.user, content := sp } :: (first :: rest).map toTurn) := rfl
  have hb := hb0.trans (if_neg hsp)
  constructor
  · intro hempty
    rw [hb, hempty]
  · intro first rest hcons
    constructor
    · intro huser
      rw [hb, hcons]
      simp only [if_pos huser]
    · intro hasst
      have hnu : ¬ first.role = Role.user := by
        rw [hasst]
        intro hcontra
        exact Role.noConfusion hcontra
      rw [hb, hcons]
      simp only [if_neg hnu]

/-- Witness for claim5_injection_amended: the three injection shapes at
concrete inputs. -/
theorem claim5_injection_amended_witness :
    build_prompt ([] : List ChatMessage) (some "S") = [{ role := Role.user, content := "S" }]
    ∧ build_prompt [userMsg] (some "S")
        = [{ role := Role.user, content := pyStrip ("S" ++ "\n\n" ++ userMsg.content) }]
    ∧ build_prompt [asstMsg] (some "S")
        = [{ role := Role.user, content := "S" }, toTurn asstMsg] :=
  ⟨(claim5_injection_amended "S" (by decide) []).1 rfl,
   ((claim5_injection_amended "S" (by decide) [userMsg]).2 userMsg [] rfl).1 rfl,
   ((claim5_injection_amended "S" (by decide) [asstMsg]).2 asstMsg [] rfl).2 rfl⟩

/-- C6: coalescing merges adjacent same-role messages, transitively,
into one turn with blank-line-separated contents (normalize_messages
equals the specification-level coalescing function), and with no
instruction the assembler emits exactly the coalesced sequence,
including the empty case; the concrete example from the claim holds. -/
theorem claim6_coalescing (ms hist : List ChatMessage) :
    normalize_messages ms = coalesce_spec ms
    ∧ build_prompt hist none = (normalize_messages hist).map toTurn
    ∧ build_prompt
        [{ role := Role.user, content := "a", created_at := 0 },
         { role := Role.user, content := "b", created_at := 0 },
         { role := Role.assistant, content := "c", created_at := 0 }] none
      = [{ role := Role.user, content := "a" ++ "\n\n" ++ "b" },
         { role := Role.assistant, content := "c" }] :=
  ⟨normalize_eq_coalesce ms, rfl, by decide⟩

/-- C7: for an id present in the store, remove_trailing_user_message is
a no-op returning the store unchanged (collection and persisted file
alike, no exception) when the message list is empty or its last message
is not a user message; and exactly when the last message is a user
message it drops that message, refreshes updated_at to now, and persists
the updated collection. -/
theorem claim7_remove_trailing (m : HistoryManager) (id : String) (now : Int)
    (c : Conversation) (h : findConversation m id = some c) :
    ((c.messages = [] ∨ ¬ (c.messages.getLast?).map ChatMessage.role = some Role.user) →
      remove_trailing_user_message m id now = (m, .ok c))
    ∧ (∀ last, c.messages.getLast? = some last → last.role = Role.user →
        remove_trailing_user_message m id now =
          (persist { m with conversations :=
              (replaceFirst id { c with messages := c.messages.dropLast, updated_at := now }
                m.conversations) },
           .ok { c with messages := c.messages.dropLast, updated_at := now })) := by
  constructor
  · intro hno
    exact remove_trailing_noop m id now c h hno
  · intro last hlast hrole
    exact remove_trailing_removes m id now c last h hlast hrole

/-- Witness for claim7_remove_trailing: the removal branch on a concrete
store whose conversation ends with a user message. -/
theorem claim7_remove_trailing_witness :
    remove_trailing_user_message store7 "m" 3 =
      (persist { store7 with conversations :=
          (replaceFirst "m" { convM with messages := convM.messages.dropLast, updated_at := 3 }
            store7.conversations) },
       .ok { convM with messages := convM.messages.dropLast, updated_at := 3 }) :=
  (claim7_remove_trailing store7 "m" 3 convM (by decide)).2 userMsg (by decide) (by decide)

/-- C8: after append_message on an id present in the store, the returned
conversation carries the appended message at the end of its message list
and the refreshed updated_at; it sits at position 0 of the listed
collection and is what get returns for that id; and when the
conversation was already at position 0, every other conversation keeps
its place (the rest of the list is exactly the old tail). -/
theorem claim8_append (m : HistoryManager) (id : String) (msg : ChatMessage) (now : Int)
    (c : Conversation) (h : findConversation m id = some c) :
    (append_message m id msg now).2 =
      .ok { c with messages := c.messages ++ [msg], updated_at := now }
    ∧ (list_conversations (append_message m id msg now).1).head? =
        some { c with messages := c.messages ++ [msg], updated_at := now }
    ∧ ({ c with messages := c.messages ++ [msg], updated_at := now } : Conversation).messages.getLast?
        = some msg
    ∧ findConversation (append_message m id msg now).1 id =
        some { c with messages := c.messages ++ [msg], updated_at := now }
    ∧ (m.conversations.head? = some c →
        (append_message m id msg now).1.conversations =
          { c with messages := c.messages ++ [msg], updated_at := now } :: m.conversations.tail) := by
  obtain ⟨pre, post, hsplit, hpre, hc, heq⟩ := append_message_decomp m id msg now c h
  refine ⟨?_, ?_, ?_, ?_, ?_⟩
  · rw [heq]
  · rw [heq]
    rfl
  · simp
  · rw [heq]
    exact List.find?_cons_of_pos _ (by simp [hc])
  · intro hhead
    cases pre with
    | nil =>
      rw [heq, hsplit]
      rfl
    | cons d pre' =>
      rw [hsplit] at hhead
      have hd : d = c := by simpa using hhead
      exact absurd (by rw [hd]; exact hc) (hpre d (by simp))

/-- Witness for claim8_append on a concrete one-conversation store. -/
theorem claim8_append_witness :
    (append_message store7 "m" asstMsg 4).2 =
      .ok { convM with messages := convM.messages ++ [asstMsg], updated_at := 4 }
    ∧ (append_message store7 "m" asstMsg 4).1.conversations =
        { convM with messages := convM.messages ++ [asstMsg], updated_at := 4 }
          :: store7.conversations.tail :=
  ⟨(claim8_append store7 "m" asstMsg 4 convM (by decide)).1,
   (claim8_append store7 "m" asstMsg 4 convM (by decide)).2.2.2.2 (by decide)⟩

/-- C10: create_conversation on a store holding exactly
max_conversations conversations, all favorites, inserts the fresh
non-favorite conversation and capacity enforcement immediately evicts
it (it is the only non-favorite), so the returned conversation's id is
absent from the collection, the collection is unchanged, and the file is
re-persisted with that unchanged collection. -/
theorem claim10_create_onto_full_favorites (m : HistoryManager) (id : String) (now : Int)
    (hlen : m.conversations.length = m.config.max_conversations)
    (hfav : ∀ c ∈ m.conversations, c.is_favorite = true)
    (hid : ¬ id ∈ m.conversations.map Conversation.conversation_id) :
    (create_conversation m id now).1.conversations = m.conversations
    ∧ (create_conversation m id now).2.conversation_id = id
    ∧ ¬ (create_conversation m id now).2.conversation_id ∈
        ((create_conversation m id now).1.conversations.map Conversation.conversation_id)
    ∧ (create_conversation m id now).1.file = serialize m.conversations := by
  have hfilter : (new_conversation id now :: m.conversations).filter (fun c => !c.is_favorite)
      = [new_conversation id now] := by
    rw [List.filter_cons, allfav_filter_nonfav_nil m.conversations hfav]
    simp [new_conversation]
  have holdest : oldest_non_favorite (new_conversation id now :: m.conversations)
      = some (new_conversation id now) := by
    unfold oldest_non_favorite
    rw [hfilter]
    rfl
  have hrm : removeFirstEq (new_conversation id now)
      (new_conversation id now :: m.conversations) = m.conversations := by
    simp [removeFirstEq]
  have hconv : (create_conversation m id now).1.conversations = m.conversations := by
    show enforce_loop m.config (m.conversations.length + 1)
        (new_conversation id now :: m.conversations) = m.conversations
    have hcond : m.config.max_conversations <
        (new_conversation id now :: m.conversations).length := by
      simp [hlen]
    simp only [enforce_loop, if_pos hcond, holdest, hrm]
    exact enforce_loop_id m.config m.conversations.length m.conversations (by omega)
  refine ⟨hconv, rfl, ?_, ?_⟩
  · rw [hconv]
    exact hid
  · exact congrArg serialize hconv

/-- Witness for claim10_create_onto_full_favorites on a concrete full
all-favorite store. -/
theorem claim10_create_onto_full_favorites_witness :
    (create_conversation storeFull "z" 9).1.conversations = storeFull.conversations
    ∧ (create_conversation storeFull "z" 9).2.conversation_id = "z" :=
  ⟨(claim10_create_onto_full_favorites storeFull "z" 9 (by decide) (by decide) (by decide)).1,
   (claim10_create_onto_full_favorites storeFull "z" 9 (by decide) (by decide) (by decide)).2.1⟩
